import Mathlib

/-!
Shallow embedding of the conversation-state and rate-limiting core of
`src/bot.py` (classes `RateLimiter`, `ConversationManager` and the method
`GeminiBot._prune_history_by_tokens`), together with theorems settling the
specification claims about it.

Modelling conventions:
* `datetime` values are integers (one unit = one minute, matching the
  source's `timedelta(minutes=...)` granularity; one hour = 60, 24 hours
  = 1440).
* Python dicts become function maps: `RateLimiter.user_requests` is
  `Nat → List Int` (a missing key reads as `[]`, matching
  `self.user_requests.get(user_id, [])`); the two
  `ConversationManager` dicts are `Nat → Option _` so that key presence
  is observable (needed for `del` and for the key-set invariant).
* The external token counter (`self.model.count_tokens`, which may raise)
  is a parameter `countTokens : List Turn → Option Nat`; `none` models the
  exception caught at `bot.py` line 209.
* Configuration values (`Config.RATE_LIMIT_REQUESTS`,
  `Config.RATE_LIMIT_MINUTES`, `Config.MAX_CONVERSATION_MESSAGES`,
  `Config.MAX_CONTEXT_TOKENS`) are explicit parameters, since they are
  read from the environment.
-/

namespace TelegramBot

/-- A content part of a message: a text span or binary data with a mime
type; mirrors the `Part` values (`Part.from_text` / `Part.from_data`)
stored in conversation turns by `bot.py`. -/
inductive Part where
  | text (s : String)
  | data (bytes : List Nat) (mime : String)
deriving DecidableEq

/-- One conversation turn, the dict `{"role": role, "parts": parts}`
appended by `ConversationManager.add_message`. -/
structure Turn where
  role : String
  parts : List Part
deriving DecidableEq

/-- Python slice `xs[-n:]` for a natural `n`: the last `n` elements when
`0 < n`, but the WHOLE list when `n = 0` (Python's `xs[-0:]` is `xs[0:]`).
Used by `add_message` for `history[-Config.MAX_CONVERSATION_MESSAGES:]`. -/
def takeLastPy (n : Nat) (xs : List Turn) : List Turn :=
  if n = 0 then xs else xs.drop (xs.length - n)

/-- `RateLimiter.is_allowed` (`bot.py` lines 56-69). `userRequests` is the
`self.user_requests` dict; the result pairs the returned Bool with the
updated dict. `windowMinutes` is `Config.RATE_LIMIT_MINUTES`, `requestCap`
is `Config.RATE_LIMIT_REQUESTS`, `now` is `datetime.now()`. -/
def is_allowed (requestCap : Nat) (windowMinutes : Int) (now : Int)
    (userRequests : Nat → List Int) (userId : Nat) :
    Bool × (Nat → List Int) :=
  let cutoff := now - windowMinutes
  let timestamps := userRequests userId
  let validTimestamps := timestamps.filter (fun t => cutoff < t)
  if requestCap ≤ validTimestamps.length then
    (false, Function.update userRequests userId validTimestamps)
  else
    (true, Function.update userRequests userId (validTimestamps ++ [now]))

/-- Sequencing harness: feed a list of request times, one `is_allowed`
call per time, threading the `user_requests` state; returns the list of
verdicts and the final state. Used to state the multi-request rate-limit
claims about `is_allowed`. -/
def runRequests (requestCap : Nat) (windowMinutes : Int) :
    List Int → (Nat → List Int) → Nat → List Bool × (Nat → List Int)
  | [], st, _ => ([], st)
  | t :: ts, st, u =>
    let step := is_allowed requestCap windowMinutes t st u
    let rest := runRequests requestCap windowMinutes ts step.2 u
    (step.1 :: rest.1, rest.2)

/-- The mutable state of `ConversationManager`: the `self.conversations`
and `self.last_activity` dicts. -/
structure ConvState where
  conversations : Nat → Option (List Turn)
  last_activity : Nat → Option Int

/-- The empty initial state built by `ConversationManager.__init__`. -/
def initState : ConvState :=
  { conversations := fun _ => none, last_activity := fun _ => none }

/-- `ConversationManager.get_conversation` (`bot.py` lines 105-106):
`self.conversations.get(user_id, [])`. -/
def get_conversation (st : ConvState) (userId : Nat) : List Turn :=
  (st.conversations userId).getD []

/-- `ConversationManager.add_message` (`bot.py` lines 96-103):
initialise if absent, append the new turn, stamp `last_activity`, then
truncate with the Python slice `[-maxMessages:]` when the length exceeds
`maxMessages` (= `Config.MAX_CONVERSATION_MESSAGES`). -/
def add_message (maxMessages : Nat) (now : Int) (st : ConvState)
    (userId : Nat) (role : String) (parts : List Part) : ConvState :=
  let hist := (st.conversations userId).getD []
  let hist1 := hist ++ [Turn.mk role parts]
  let hist2 := if maxMessages < hist1.length then takeLastPy maxMessages hist1 else hist1
  { conversations := Function.update st.conversations userId (some hist2)
    last_activity := Function.update st.last_activity userId (some now) }

/-- `ConversationManager.clear_conversation` (`bot.py` lines 108-113):
delete the user's entry from both dicts (no-op when absent). -/
def clear_conversation (st : ConvState) (userId : Nat) : ConvState :=
  { conversations := Function.update st.conversations userId none
    last_activity := Function.update st.last_activity userId none }

/-- `ConversationManager.cleanup_inactive_conversations` (`bot.py` lines
115-121): with cutoff `now - 24h` (1440 minutes), clear every user whose
`last_activity` is strictly before the cutoff. The source collects
`to_remove` and calls `clear_conversation` per user; since each clear
touches only that user's entries, the pointwise form below is its effect. -/
def cleanup_inactive_conversations (now : Int) (st : ConvState) : ConvState :=
  { conversations := fun u =>
      match st.last_activity u with
      | some t => if t < now - 1440 then none else st.conversations u
      | none => st.conversations u
    last_activity := fun u =>
      match st.last_activity u with
      | some t => if t < now - 1440 then none else some t
      | none => none }

/-- The `while True` loop of `GeminiBot._prune_history_by_tokens`
(`bot.py` lines 198-225), acting on the fetched (non-stored) history:
count tokens on the current history (`none` = the counting exception,
which breaks the loop returning the history as trimmed so far); stop if
within `maxContextTokens`; otherwise `pop(0)` while more than one turn
remains, else stop. An empty history counts as 0 tokens (lines 200-201)
and therefore stops at once. -/
def pruneLoop (countTokens : List Turn → Option Nat) (maxContextTokens : Nat) :
    List Turn → List Turn
  | [] => []
  | h :: t =>
    match countTokens (h :: t) with
    | none => h :: t
    | some n =>
      if n ≤ maxContextTokens then h :: t
      else if 1 < (h :: t).length then pruneLoop countTokens maxContextTokens t
      else h :: t

/-- Number of loop-body executions of the `while True` loop of
`_prune_history_by_tokens` on a given history: each body either breaks
(one final iteration) or pops the head and iterates again. Mirrors the
branch structure of `pruneLoop` exactly. -/
def pruneIters (countTokens : List Turn → Option Nat) (maxContextTokens : Nat) :
    List Turn → Nat
  | [] => 1
  | h :: t =>
    match countTokens (h :: t) with
    | none => 1
    | some n =>
      if n ≤ maxContextTokens then 1
      else if 1 < (h :: t).length then 1 + pruneIters countTokens maxContextTokens t
      else 1

/-- `GeminiBot._prune_history_by_tokens` (`bot.py` lines 190-235): fetch
the user's history; if empty return `[]` without touching the store;
otherwise run the pruning loop, write the result back into
`self.conversation_manager.conversations[user_id]`, and return it. The
Python code mutates the aliased list in place and then reassigns it; the
state-passing form below has the same net effect on the store. -/
def prune_history_by_tokens (countTokens : List Turn → Option Nat)
    (maxContextTokens : Nat) (st : ConvState) (userId : Nat) :
    ConvState × List Turn :=
  let history := get_conversation st userId
  if history.isEmpty then (st, [])
  else
    let pruned := pruneLoop countTokens maxContextTokens history
    ({ st with conversations := Function.update st.conversations userId (some pruned) },
     pruned)

/-- The `ConversationManager`-mutating operations reachable in `bot.py`:
`add_message`, `clear_conversation`, `cleanup_inactive_conversations`,
and the write-back performed by `_prune_history_by_tokens`. -/
inductive MgrOp where
  | addMsg (u : Nat) (role : String) (parts : List Part) (now : Int)
  | clearConv (u : Nat)
  | cleanupInactive (now : Int)
  | pruneTokens (u : Nat) (countTokens : List Turn → Option Nat) (maxContextTokens : Nat)

/-- Apply one `MgrOp` to a `ConvState`. -/
def applyOp (maxMessages : Nat) (st : ConvState) : MgrOp → ConvState
  | .addMsg u role parts now => add_message maxMessages now st u role parts
  | .clearConv u => clear_conversation st u
  | .cleanupInactive now => cleanup_inactive_conversations now st
  | .pruneTokens u countTokens maxContextTokens =>
      (prune_history_by_tokens countTokens maxContextTokens st u).1

/-- The two dicts of `ConversationManager` have the same key set: a user
has a stored conversation iff they have a stored last-activity stamp. -/
def keysAligned (st : ConvState) : Prop :=
  ∀ u, (st.conversations u).isSome ↔ (st.last_activity u).isSome

/-! ### Concrete fixtures used to instantiate the theorems -/

/-- Sample user turn. -/
def turnA : Turn := ⟨"user", [Part.text "a"]⟩

/-- Sample model turn. -/
def turnB : Turn := ⟨"model", [Part.text "b"]⟩

/-- Second sample user turn. -/
def turnC : Turn := ⟨"user", [Part.text "c"]⟩

/-- Sample store: user 0 holds three turns, last active at time 5. -/
def sampleState : ConvState :=
  { conversations := fun v => if v = 0 then some [turnA, turnB, turnC] else none
    last_activity := fun v => if v = 0 then some 5 else none }

/-- Sample token counter that always succeeds, charging 40 tokens per turn. -/
def perTurnCounter (l : List Turn) : Option Nat := some (40 * l.length)

/-- Sample token counter that fails exactly on one-turn histories and
reports 1000 tokens otherwise. -/
def failOnSingleCounter (l : List Turn) : Option Nat :=
  if l.length = 1 then none else some 1000

/-! ## Rate limiter theorems -/

/-- Any run of `is_allowed` calls in which every request is admitted
extends the user's stored list by exactly the admitted request times:
given that the starting list splits as `junk ++ keep` with the `keep`
part inside the window of a later time `t` and all request times inside
that window too, the final stored list is `pre ++ keep ++ ts` where
`pre` consists of elements of `junk` (residue surviving the repeated
window filters). -/
theorem runRequests_admitted_general (requestCap : Nat) (windowMinutes t : Int) :
    ∀ (ts : List Int) (st : Nat → List Int) (u : Nat) (junk keep : List Int),
      st u = junk ++ keep →
      (∀ x ∈ keep, t - windowMinutes < x ∧ x ≤ t) →
      (∀ s ∈ ts, t - windowMinutes < s ∧ s ≤ t) →
      (runRequests requestCap windowMinutes ts st u).1 =
        List.replicate ts.length true →
      ∃ pre, (runRequests requestCap windowMinutes ts st u).2 u =
          pre ++ keep ++ ts ∧ ∀ x ∈ pre, x ∈ junk := by
  intro ts
  induction ts with
  | nil =>
    intro st u junk keep hst _ _ _
    refine ⟨junk, ?_, fun x hx => hx⟩
    simp only [runRequests]
    rw [List.append_nil, hst]
  | cons s rest ih =>
    intro st u junk keep hst hkeep hts hadm
    have hs := hts s (List.mem_cons_self s rest)
    simp only [runRequests, List.length_cons, List.replicate_succ] at hadm ⊢
    rw [List.cons_eq_cons] at hadm
    obtain ⟨hstep1, hrest⟩ := hadm
    have hvalid : (st u).filter (fun x => s - windowMinutes < x) =
        junk.filter (fun x => s - windowMinutes < x) ++ keep := by
      rw [hst, List.filter_append]
      congr 1
      rw [List.filter_eq_self]
      intro x hx
      have hx2 := hkeep x hx
      simp only [decide_eq_true_eq]
      omega
    by_cases hcapcase : requestCap ≤
        ((st u).filter (fun x => s - windowMinutes < x)).length
    · exfalso
      have hfalse : (is_allowed requestCap windowMinutes s st u).1 = false := by
        simp only [is_allowed]
        rw [if_pos hcapcase]
      rw [hfalse] at hstep1
      exact Bool.noConfusion hstep1
    · have hsteps : (is_allowed requestCap windowMinutes s st u).2 =
          Function.update st u
            ((st u).filter (fun x => s - windowMinutes < x) ++ [s]) := by
        simp only [is_allowed]
        rw [if_neg hcapcase]
      rw [hsteps] at hrest ⊢
      have hst2 : Function.update st u
          ((st u).filter (fun x => s - windowMinutes < x) ++ [s]) u =
          junk.filter (fun x => s - windowMinutes < x) ++ (keep ++ [s]) := by
        simp only [Function.update_same]
        rw [hvalid, List.append_assoc]
      obtain ⟨pre, hfin, hsub⟩ := ih (Function.update st u
          ((st u).filter (fun x => s - windowMinutes < x) ++ [s])) u
        (junk.filter (fun x => s - windowMinutes < x)) (keep ++ [s]) hst2
        (by
          intro x hx
          rcases List.mem_append.mp hx with h1 | h1
          · exact hkeep x h1
          · rcases List.mem_singleton.mp h1 with rfl
            exact hs)
        (fun x hx => hts x (List.mem_cons_of_mem s hx))
        hrest
      refine ⟨pre, ?_, fun x hx => (List.mem_filter.mp (hsub x hx)).1⟩
      rw [hfin]
      simp only [List.append_assoc, List.cons_append, List.nil_append]

/-- C2: for every user -- regardless of previously stored timestamps --
and every sequence of N admitted requests within one rate window where N
equals the configured request cap, the (N+1)-th call to `is_allowed`
for that user within the same window returns false; after the window has
fully elapsed since those admissions (and since every previously stored
timestamp, stored timestamps being the times of earlier requests), a new
call to `is_allowed` returns true. -/
theorem rate_limit_cap_then_window_reset (requestCap : Nat) (windowMinutes : Int)
    (ts : List Int) (st : Nat → List Int) (u : Nat) (t tLater : Int)
    (hcap : 0 < requestCap)
    (hlen : ts.length = requestCap)
    (hadm : (runRequests requestCap windowMinutes ts st u).1 =
      List.replicate requestCap true)
    (hin : ∀ s ∈ ts, t - windowMinutes < s ∧ s ≤ t)
    (hstale : ∀ x ∈ st u, x ≤ tLater - windowMinutes)
    (hlater : ∀ s ∈ ts, s ≤ tLater - windowMinutes) :
    (is_allowed requestCap windowMinutes t
        (runRequests requestCap windowMinutes ts st u).2 u).1 = false ∧
    (is_allowed requestCap windowMinutes tLater
        (is_allowed requestCap windowMinutes t
          (runRequests requestCap windowMinutes ts st u).2 u).2 u).1 = true := by
  obtain ⟨pre, hfinal, hsub⟩ := runRequests_admitted_general requestCap
    windowMinutes t ts st u (st u) [] (by rw [List.append_nil])
    (by intro x hx; simp at hx) hin (by rw [hlen]; exact hadm)
  rw [List.append_nil] at hfinal
  have hfilter_t : (pre ++ ts).filter (fun x => t - windowMinutes < x) =
      pre.filter (fun x => t - windowMinutes < x) ++ ts := by
    rw [List.filter_append]
    congr 1
    rw [List.filter_eq_self]
    intro a ha
    simp only [decide_eq_true_eq]
    exact (hin a ha).1
  have hcaple : requestCap ≤
      (((runRequests requestCap windowMinutes ts st u).2 u).filter
        (fun x => t - windowMinutes < x)).length := by
    rw [hfinal, hfilter_t, List.length_append]
    omega
  have hreject : is_allowed requestCap windowMinutes t
      (runRequests requestCap windowMinutes ts st u).2 u =
      (false, Function.update (runRequests requestCap windowMinutes ts st u).2 u
        (((runRequests requestCap windowMinutes ts st u).2 u).filter
          (fun x => t - windowMinutes < x))) := by
    simp only [is_allowed]
    rw [if_pos hcaple]
  refine ⟨by rw [hreject], ?_⟩
  rw [hreject]
  have hu : Function.update (runRequests requestCap windowMinutes ts st u).2 u
      (((runRequests requestCap windowMinutes ts st u).2 u).filter
        (fun x => t - windowMinutes < x)) u =
      pre.filter (fun x => t - windowMinutes < x) ++ ts := by
    simp only [Function.update_same]
    rw [hfinal, hfilter_t]
  have hnil2 : (pre.filter (fun x => t - windowMinutes < x) ++ ts).filter
      (fun x => tLater - windowMinutes < x) = [] := by
    rw [List.filter_eq_nil_iff]
    intro a ha
    simp only [decide_eq_true_eq]
    rcases List.mem_append.mp ha with h1 | h1
    · have ha2 := hstale a (hsub a (List.mem_filter.mp h1).1)
      omega
    · have ha2 := hlater a h1
      omega
  simp only [is_allowed, hu, hnil2]
  rw [if_neg (by simp only [List.length_nil]; omega)]

/-- C2 witness: cap 2, window 1; user 0 already holds a stale timestamp
-100, then two admissions at time 10 fill the window, a third call at
time 10 is rejected, and a call at time 20 is admitted again. -/
theorem rate_limit_cap_then_window_reset_witness :
    (0 < 2 ∧ ([10, 10] : List Int).length = 2 ∧
      (runRequests 2 1 [10, 10] (fun _ => [(-100 : Int)]) 0).1 =
        List.replicate 2 true ∧
      (∀ s ∈ ([10, 10] : List Int), (10 : Int) - 1 < s ∧ s ≤ 10) ∧
      (∀ x ∈ (fun _ : Nat => [(-100 : Int)]) 0, x ≤ (20 : Int) - 1) ∧
      (∀ s ∈ ([10, 10] : List Int), s ≤ (20 : Int) - 1)) ∧
    ((is_allowed 2 1 10
        (runRequests 2 1 [10, 10] (fun _ => [(-100 : Int)]) 0).2 0).1 = false ∧
    (is_allowed 2 1 20
        (is_allowed 2 1 10
          (runRequests 2 1 [10, 10] (fun _ => [(-100 : Int)]) 0).2 0).2 0).1 =
      true) :=
  ⟨⟨by decide, rfl, by decide, by decide, by decide, by decide⟩,
    rate_limit_cap_then_window_reset 2 1 [10, 10] (fun _ => [(-100 : Int)]) 0 10 20
      (by decide) rfl (by decide) (by decide) (by decide) (by decide)⟩

/-- C5: for every user whose in-window timestamp count is at or above the
request cap, a rejected `is_allowed` call does not add a timestamp: the
stored list after rejection equals the pre-call list filtered to the
current window (the rejected attempt is not recorded, and the list is
compacted to the window even on rejection). -/
theorem rate_limit_reject_no_record (requestCap : Nat) (windowMinutes now : Int)
    (st : Nat → List Int) (u : Nat)
    (hcap : requestCap ≤ ((st u).filter (fun x => now - windowMinutes < x)).length) :
    is_allowed requestCap windowMinutes now st u =
      (false,
        Function.update st u ((st u).filter (fun x => now - windowMinutes < x))) := by
  simp only [is_allowed]
  rw [if_pos hcap]

/-- C5 witness: cap 1, window 10, one in-window timestamp 95 at time 100. -/
theorem rate_limit_reject_no_record_witness :
    1 ≤ (((fun _ : Nat => [(95 : Int)]) 3).filter
        (fun x => (100 : Int) - 10 < x)).length ∧
    is_allowed 1 10 100 (fun _ => [(95 : Int)]) 3 =
      (false,
        Function.update (fun _ => [(95 : Int)]) 3
          (((fun _ : Nat => [(95 : Int)]) 3).filter
            (fun x => (100 : Int) - 10 < x))) :=
  ⟨by decide, rate_limit_reject_no_record 1 10 100 (fun _ => [(95 : Int)]) 3 (by decide)⟩

/-! ## Conversation manager theorems -/

/-- C3: for every user, role and non-empty parts list, after
`add_message` the user's history length is at most the configured
message-count cap, and when the cap would be exceeded the history is
truncated from the front so that exactly the newest cap-many turns remain
in their original relative order. -/
theorem add_message_caps_history (maxMessages : Nat) (now : Int) (st : ConvState)
    (u : Nat) (role : String) (parts : List Part)
    (hcap : 0 < maxMessages) (hparts : parts ≠ []) :
    (get_conversation (add_message maxMessages now st u role parts) u).length ≤
      maxMessages ∧
    (maxMessages < (get_conversation st u).length + 1 →
      get_conversation (add_message maxMessages now st u role parts) u =
        (get_conversation st u ++ [Turn.mk role parts]).drop
          ((get_conversation st u).length + 1 - maxMessages)) ∧
    ((get_conversation st u).length + 1 ≤ maxMessages →
      get_conversation (add_message maxMessages now st u role parts) u =
        get_conversation st u ++ [Turn.mk role parts]) := by
  have key : get_conversation (add_message maxMessages now st u role parts) u =
      (if maxMessages < (get_conversation st u ++ [Turn.mk role parts]).length
        then takeLastPy maxMessages (get_conversation st u ++ [Turn.mk role parts])
        else get_conversation st u ++ [Turn.mk role parts]) := by
    simp only [add_message, get_conversation, Function.update_same]
    rfl
  rw [key]
  by_cases hc : maxMessages < (get_conversation st u ++ [Turn.mk role parts]).length
  · rw [if_pos hc]
    unfold takeLastPy
    rw [if_neg (by omega)]
    simp only [List.length_append, List.length_cons, List.length_nil] at hc
    refine ⟨?_, ?_, ?_⟩
    · rw [List.length_drop]
      simp only [List.length_append, List.length_cons, List.length_nil]
      omega
    · intro _
      congr 1
      simp only [List.length_append, List.length_cons, List.length_nil]
    · intro hle
      omega
  · rw [if_neg hc]
    simp only [List.length_append, List.length_cons, List.length_nil] at hc
    refine ⟨?_, ?_, ?_⟩
    · simp only [List.length_append, List.length_cons, List.length_nil]
      omega
    · intro hlt
      omega
    · intro _
      rfl

/-- C3 witness: Scenario B shape with cap 4 on the three-turn sample
store, adding a fourth turn for user 0. -/
theorem add_message_caps_history_witness :
    (0 < 4 ∧ [Part.text "d"] ≠ []) ∧
    ((get_conversation (add_message 4 6 sampleState 0 "user" [Part.text "d"]) 0).length ≤
      4 ∧
    (4 < (get_conversation sampleState 0).length + 1 →
      get_conversation (add_message 4 6 sampleState 0 "user" [Part.text "d"]) 0 =
        (get_conversation sampleState 0 ++ [Turn.mk "user" [Part.text "d"]]).drop
          ((get_conversation sampleState 0).length + 1 - 4)) ∧
    ((get_conversation sampleState 0).length + 1 ≤ 4 →
      get_conversation (add_message 4 6 sampleState 0 "user" [Part.text "d"]) 0 =
        get_conversation sampleState 0 ++ [Turn.mk "user" [Part.text "d"]])) :=
  ⟨⟨by decide, by decide⟩,
    add_message_caps_history 4 6 sampleState 0 "user" [Part.text "d"]
      (by decide) (by decide)⟩

/-- C8: calling `cleanup_inactive_conversations` twice in succession,
with no intervening activity and the same current time, yields the same
state as calling it once. -/
theorem cleanup_idempotent (now : Int) (st : ConvState) :
    cleanup_inactive_conversations now (cleanup_inactive_conversations now st) =
      cleanup_inactive_conversations now st := by
  unfold cleanup_inactive_conversations
  congr 1
  · funext v
    cases hla : st.last_activity v with
    | none => simp [hla]
    | some t =>
      by_cases ht : t < now - 1440
      · simp [hla, ht]
      · simp [hla, ht]
  · funext v
    cases hla : st.last_activity v with
    | none => simp [hla]
    | some t =>
      by_cases ht : t < now - 1440
      · simp [hla, ht]
      · simp [hla, ht]

/-- C9: every user whose last-activity timestamp strictly predates
now minus 24 hours is removed entirely by
`cleanup_inactive_conversations`, and a subsequent `get_conversation`
returns the empty sequence. -/
theorem cleanup_removes_idle (now : Int) (st : ConvState) (u : Nat) (t : Int)
    (hact : st.last_activity u = some t) (hidle : t < now - 1440) :
    (cleanup_inactive_conversations now st).conversations u = none ∧
    (cleanup_inactive_conversations now st).last_activity u = none ∧
    get_conversation (cleanup_inactive_conversations now st) u = [] := by
  unfold cleanup_inactive_conversations get_conversation
  simp [hact, hidle]

/-- C9 witness: Scenario E shape, user 0 of the sample store last active
at time 5, cleaned up at time 2000 (idle for more than 1440 minutes). -/
theorem cleanup_removes_idle_witness :
    (sampleState.last_activity 0 = some 5 ∧ (5 : Int) < 2000 - 1440) ∧
    ((cleanup_inactive_conversations 2000 sampleState).conversations 0 = none ∧
    (cleanup_inactive_conversations 2000 sampleState).last_activity 0 = none ∧
    get_conversation (cleanup_inactive_conversations 2000 sampleState) 0 = []) :=
  ⟨⟨rfl, by decide⟩,
    cleanup_removes_idle 2000 sampleState 0 5 rfl (by decide)⟩

/-! ## Pruning loop lemmas -/

/-- The loop breaks at once when the token counter raises on entry. -/
theorem pruneLoop_break_none (countTokens : List Turn → Option Nat)
    (mx : Nat) (a : Turn) (t : List Turn)
    (hn : countTokens (a :: t) = none) :
    pruneLoop countTokens mx (a :: t) = a :: t := by
  simp [pruneLoop, hn]

/-- The loop breaks at once when the current history is within budget. -/
theorem pruneLoop_break_within (countTokens : List Turn → Option Nat)
    (mx n : Nat) (a : Turn) (t : List Turn)
    (hn : countTokens (a :: t) = some n) (hle : n ≤ mx) :
    pruneLoop countTokens mx (a :: t) = a :: t := by
  simp [pruneLoop, hn, hle]

/-- Over budget with more than one turn: the loop pops the oldest turn
and continues on the tail. -/
theorem pruneLoop_step (countTokens : List Turn → Option Nat)
    (mx n : Nat) (a : Turn) (t : List Turn)
    (hn : countTokens (a :: t) = some n) (hgt : mx < n) (hne : t ≠ []) :
    pruneLoop countTokens mx (a :: t) = pruneLoop countTokens mx t := by
  have h1 : ¬ n ≤ mx := by omega
  have hlen : 1 < (a :: t).length := by
    cases t with
    | nil => exact absurd rfl hne
    | cons b t2 => simp only [List.length_cons]; omega
  simp only [pruneLoop, hn]
  rw [if_neg h1, if_pos hlen]

/-- Over budget with a single remaining turn: the loop keeps it and stops. -/
theorem pruneLoop_break_single (countTokens : List Turn → Option Nat)
    (mx n : Nat) (a : Turn)
    (hn : countTokens [a] = some n) (hgt : mx < n) :
    pruneLoop countTokens mx [a] = [a] := by
  have h1 : ¬ n ≤ mx := by omega
  simp [pruneLoop, hn, h1]

/-- The pruning loop only removes turns from the front: its result is a
suffix of its input. -/
theorem pruneLoop_suffix (countTokens : List Turn → Option Nat) (mx : Nat) :
    ∀ h : List Turn, pruneLoop countTokens mx h <:+ h := by
  intro h
  induction h with
  | nil => simp [pruneLoop]
  | cons a t ih =>
    cases hn : countTokens (a :: t) with
    | none =>
      rw [pruneLoop_break_none countTokens mx a t hn]
    | some n =>
      by_cases hle : n ≤ mx
      · rw [pruneLoop_break_within countTokens mx n a t hn hle]
      · by_cases hne2 : t = []
        · subst hne2
          rw [pruneLoop_break_single countTokens mx n a hn (by omega)]
        · rw [pruneLoop_step countTokens mx n a t hn (by omega) hne2]
          exact ih.trans (List.suffix_cons a t)

/-- The pruning loop never erases a non-empty history. -/
theorem pruneLoop_ne_nil (countTokens : List Turn → Option Nat) (mx : Nat) :
    ∀ h : List Turn, h ≠ [] → pruneLoop countTokens mx h ≠ [] := by
  intro h
  induction h with
  | nil => intro hne; exact absurd rfl hne
  | cons a t ih =>
    intro _
    cases hn : countTokens (a :: t) with
    | none =>
      rw [pruneLoop_break_none countTokens mx a t hn]
      intro hx
      exact List.noConfusion hx
    | some n =>
      by_cases hle : n ≤ mx
      · rw [pruneLoop_break_within countTokens mx n a t hn hle]
        intro hx
        exact List.noConfusion hx
      · by_cases hne2 : t = []
        · subst hne2
          rw [pruneLoop_break_single countTokens mx n a hn (by omega)]
          intro hx
          exact List.noConfusion hx
        · rw [pruneLoop_step countTokens mx n a t hn (by omega) hne2]
          exact ih hne2

/-- When the counter succeeds on every non-empty history, the loop stops
either within budget or with exactly one (oversized) turn left. -/
theorem pruneLoop_budget (countTokens : List Turn → Option Nat) (mx : Nat) :
    ∀ h : List Turn, h ≠ [] →
      (∀ l : List Turn, l ≠ [] → ∃ n, countTokens l = some n) →
      (∃ n, countTokens (pruneLoop countTokens mx h) = some n ∧ n ≤ mx) ∨
      ((pruneLoop countTokens mx h).length = 1 ∧
        ∃ n, countTokens (pruneLoop countTokens mx h) = some n ∧ mx < n) := by
  intro h
  induction h with
  | nil => intro hne _; exact absurd rfl hne
  | cons a t ih =>
    intro _ htc
    obtain ⟨n, hn⟩ := htc (a :: t) (by intro hx; exact List.noConfusion hx)
    by_cases hle : n ≤ mx
    · rw [pruneLoop_break_within countTokens mx n a t hn hle]
      exact Or.inl ⟨n, hn, hle⟩
    · by_cases hne2 : t = []
      · subst hne2
        rw [pruneLoop_break_single countTokens mx n a hn (by omega)]
        exact Or.inr ⟨rfl, n, hn, by omega⟩
      · rw [pruneLoop_step countTokens mx n a t hn (by omega) hne2]
        exact ih hne2 htc

/-- When the counter fails after `k` over-budget pops, the loop stops and
returns the history with exactly the first `k` turns removed. -/
theorem pruneLoop_abort (countTokens : List Turn → Option Nat) (mx : Nat) :
    ∀ (k : Nat) (h : List Turn), k < h.length →
      countTokens (h.drop k) = none →
      (∀ j, j < k → ∃ n, countTokens (h.drop j) = some n ∧ mx < n) →
      pruneLoop countTokens mx h = h.drop k := by
  intro k
  induction k with
  | zero =>
    intro h hk hfail _
    cases h with
    | nil => simp at hk
    | cons a t =>
      rw [List.drop_zero] at hfail ⊢
      exact pruneLoop_break_none countTokens mx a t hfail
  | succ k ih =>
    intro h hk hfail hover
    cases h with
    | nil => simp at hk
    | cons a t =>
      obtain ⟨n, hn, hlt⟩ := hover 0 (Nat.succ_pos k)
      rw [List.drop_zero] at hn
      simp only [List.length_cons] at hk
      have hne : t ≠ [] := by
        intro h0
        rw [h0] at hk
        simp at hk
      rw [pruneLoop_step countTokens mx n a t hn hlt hne, List.drop_succ_cons]
      exact ih t (by omega)
        (by rwa [List.drop_succ_cons] at hfail)
        (fun j hj => by
          have hj2 := hover (j + 1) (by omega)
          rwa [List.drop_succ_cons] at hj2)

/-- Loop-iteration count is bounded by the history length. -/
theorem pruneIters_le_length (countTokens : List Turn → Option Nat) (mx : Nat) :
    ∀ h : List Turn, h ≠ [] → pruneIters countTokens mx h ≤ h.length := by
  intro h
  induction h with
  | nil => intro hne; exact absurd rfl hne
  | cons a t ih =>
    intro _
    cases hn : countTokens (a :: t) with
    | none =>
      simp only [pruneIters, hn, List.length_cons]
      omega
    | some n =>
      by_cases hle : n ≤ mx
      · simp only [pruneIters, hn, if_pos hle, List.length_cons]
        omega
      · by_cases hne2 : t = []
        · subst hne2
          simp only [pruneIters, hn, if_neg hle, List.length_cons]
          rw [if_neg (by simp)]
          omega
        · have hlen2 : 0 < t.length := by
            cases t with
            | nil => exact absurd rfl hne2
            | cons b t2 => simp only [List.length_cons]; omega
          simp only [pruneIters, hn, if_neg hle, List.length_cons]
          rw [if_pos (by omega)]
          have hih := ih hne2
          omega

/-! ## Pruning theorems on the full operation -/

/-- Unfolding of `prune_history_by_tokens` on an empty history: nothing
is written back and the empty list is returned. -/
theorem prune_of_nil (countTokens : List Turn → Option Nat) (mx : Nat)
    (st : ConvState) (u : Nat) (hnil : get_conversation st u = []) :
    prune_history_by_tokens countTokens mx st u = (st, []) := by
  simp only [prune_history_by_tokens]
  rw [if_pos (by rw [List.isEmpty_iff]; exact hnil)]

/-- Unfolding of `prune_history_by_tokens` on a non-empty history: the
loop result is written back for the user and returned. -/
theorem prune_of_ne_nil (countTokens : List Turn → Option Nat) (mx : Nat)
    (st : ConvState) (u : Nat) (hne : get_conversation st u ≠ []) :
    prune_history_by_tokens countTokens mx st u =
      ({ st with conversations := Function.update st.conversations u (some (pruneLoop countTokens mx (get_conversation st u))) },
        pruneLoop countTokens mx (get_conversation st u)) := by
  simp only [prune_history_by_tokens]
  rw [if_neg (by rw [List.isEmpty_iff]; exact hne)]

/-- C6: for every user and every history, `prune_history_by_tokens`
never increases the history length and never reorders remaining turns:
the returned (and persisted) history is a suffix of the input history,
obtained by removing zero or more turns from the front only. -/
theorem prune_only_truncates_front (countTokens : List Turn → Option Nat)
    (mx : Nat) (st : ConvState) (u : Nat) :
    (prune_history_by_tokens countTokens mx st u).2 <:+ get_conversation st u ∧
    get_conversation (prune_history_by_tokens countTokens mx st u).1 u =
      (prune_history_by_tokens countTokens mx st u).2 ∧
    (prune_history_by_tokens countTokens mx st u).2.length ≤
      (get_conversation st u).length := by
  by_cases hnil : get_conversation st u = []
  · rw [prune_of_nil countTokens mx st u hnil]
    exact ⟨by rw [hnil], hnil, by rw [hnil]⟩
  · rw [prune_of_ne_nil countTokens mx st u hnil]
    refine ⟨pruneLoop_suffix countTokens mx _, ?_,
      (pruneLoop_suffix countTokens mx _).length_le⟩
    simp [get_conversation, Function.update_same]

/-- C1: for every user with a non-empty history, if the token counter
succeeds on every invocation, `prune_history_by_tokens` drops oldest
turns only and returns a history whose total token cost is at most the
configured budget, except when exactly one turn remains and it alone
exceeds the budget, in which case that single turn is kept rather than
dropped. -/
theorem prune_result_within_budget (countTokens : List Turn → Option Nat)
    (mx : Nat) (st : ConvState) (u : Nat)
    (hne : get_conversation st u ≠ [])
    (htc : ∀ l : List Turn, l ≠ [] → ∃ n, countTokens l = some n) :
    (prune_history_by_tokens countTokens mx st u).2 ≠ [] ∧
    (prune_history_by_tokens countTokens mx st u).2 <:+ get_conversation st u ∧
    ((∃ n, countTokens (prune_history_by_tokens countTokens mx st u).2 = some n ∧
        n ≤ mx) ∨
      ((prune_history_by_tokens countTokens mx st u).2.length = 1 ∧
        ∃ n, countTokens (prune_history_by_tokens countTokens mx st u).2 = some n ∧
          mx < n)) := by
  rw [prune_of_ne_nil countTokens mx st u hne]
  exact ⟨pruneLoop_ne_nil countTokens mx _ hne, pruneLoop_suffix countTokens mx _,
    pruneLoop_budget countTokens mx _ hne htc⟩

/-- C1 witness: Scenario C shape, budget 100 against three turns of 40
tokens each; one turn is dropped and 80 ≤ 100 remains. -/
theorem prune_result_within_budget_witness :
    (get_conversation sampleState 0 ≠ [] ∧
      ∀ l : List Turn, l ≠ [] → ∃ n, perTurnCounter l = some n) ∧
    ((prune_history_by_tokens perTurnCounter 100 sampleState 0).2 ≠ [] ∧
      (prune_history_by_tokens perTurnCounter 100 sampleState 0).2 <:+
        get_conversation sampleState 0 ∧
      ((∃ n, perTurnCounter
            (prune_history_by_tokens perTurnCounter 100 sampleState 0).2 =
          some n ∧ n ≤ 100) ∨
        ((prune_history_by_tokens perTurnCounter 100 sampleState 0).2.length = 1 ∧
          ∃ n, perTurnCounter
              (prune_history_by_tokens perTurnCounter 100 sampleState 0).2 =
            some n ∧ 100 < n))) :=
  ⟨⟨by decide, fun l _ => ⟨40 * l.length, rfl⟩⟩,
    prune_result_within_budget perTurnCounter 100 sampleState 0 (by decide)
      (fun l _ => ⟨40 * l.length, rfl⟩)⟩

/-- C4: if the token counter fails after `k` over-budget iterations, the
pruning loop aborts and the operation returns (and persists) the history
as trimmed so far, without erasing it; the error is not propagated (the
operation still produces a history). -/
theorem prune_counter_failure_fail_open (countTokens : List Turn → Option Nat)
    (mx : Nat) (st : ConvState) (u : Nat) (k : Nat)
    (hk : k < (get_conversation st u).length)
    (hfail : countTokens ((get_conversation st u).drop k) = none)
    (hover : ∀ j, j < k →
      ∃ n, countTokens ((get_conversation st u).drop j) = some n ∧ mx < n) :
    (prune_history_by_tokens countTokens mx st u).2 =
      (get_conversation st u).drop k ∧
    (prune_history_by_tokens countTokens mx st u).2 ≠ [] ∧
    get_conversation (prune_history_by_tokens countTokens mx st u).1 u =
      (get_conversation st u).drop k := by
  have hne : get_conversation st u ≠ [] := by
    intro h0
    rw [h0] at hk
    simp at hk
  rw [prune_of_ne_nil countTokens mx st u hne]
  have heq := pruneLoop_abort countTokens mx k (get_conversation st u) hk hfail hover
  refine ⟨heq, ?_, ?_⟩
  · rw [heq]
    intro h0
    have hlen := congrArg List.length h0
    simp only [List.length_drop, List.length_nil] at hlen
    omega
  · simp only [get_conversation, Function.update_same, Option.getD_some]
    exact heq

/-- C4 witness: three turns; the counter reports 1000 tokens on longer
histories and fails once a single turn remains, so with budget 100 the
loop pops twice and then aborts, returning the one-turn remainder. -/
theorem prune_counter_failure_fail_open_witness :
    (2 < (get_conversation sampleState 0).length ∧
      failOnSingleCounter ((get_conversation sampleState 0).drop 2) = none ∧
      (∀ j, j < 2 → ∃ n,
        failOnSingleCounter ((get_conversation sampleState 0).drop j) = some n ∧
          100 < n)) ∧
    ((prune_history_by_tokens failOnSingleCounter 100 sampleState 0).2 =
      (get_conversation sampleState 0).drop 2 ∧
    (prune_history_by_tokens failOnSingleCounter 100 sampleState 0).2 ≠ [] ∧
    get_conversation
        (prune_history_by_tokens failOnSingleCounter 100 sampleState 0).1 0 =
      (get_conversation sampleState 0).drop 2) :=
  ⟨⟨by decide, by decide,
      by
        intro j hj
        interval_cases j
        · exact ⟨1000, by decide, by omega⟩
        · exact ⟨1000, by decide, by omega⟩⟩,
    prune_counter_failure_fail_open failOnSingleCounter 100 sampleState 0 2
      (by decide) (by decide)
      (by
        intro j hj
        interval_cases j
        · exact ⟨1000, by decide, by omega⟩
        · exact ⟨1000, by decide, by omega⟩)⟩

/-- C7: for every user and history, the pruning loop of
`prune_history_by_tokens` terminates, its iteration count bounded by the
history length (each iteration either breaks or strictly shortens the
history, stopping no later than when one turn remains). -/
theorem prune_loop_iterations_bounded (countTokens : List Turn → Option Nat)
    (mx : Nat) (st : ConvState) (u : Nat)
    (hne : get_conversation st u ≠ []) :
    pruneIters countTokens mx (get_conversation st u) ≤
      (get_conversation st u).length :=
  pruneIters_le_length countTokens mx (get_conversation st u) hne

/-- C7 witness: the three-turn sample history with the 40-token-per-turn
counter and budget 100 runs at most three loop iterations. -/
theorem prune_loop_iterations_bounded_witness :
    get_conversation sampleState 0 ≠ [] ∧
    pruneIters perTurnCounter 100 (get_conversation sampleState 0) ≤
      (get_conversation sampleState 0).length :=
  ⟨by decide,
    prune_loop_iterations_bounded perTurnCounter 100 sampleState 0 (by decide)⟩

/-! ## Key-set alignment of the two conversation maps -/

/-- `add_message` keeps the key sets of the two dicts aligned. -/
theorem keysAligned_add (maxMessages : Nat) (now : Int) (st : ConvState)
    (u : Nat) (role : String) (parts : List Part)
    (h : keysAligned st) :
    keysAligned (add_message maxMessages now st u role parts) := by
  intro v
  by_cases hv : v = u
  · subst hv
    simp only [add_message, Function.update_same]
    simp
  · simp only [add_message]
    rw [Function.update_noteq hv, Function.update_noteq hv]
    exact h v

/-- `clear_conversation` keeps the key sets aligned. -/
theorem keysAligned_clear (st : ConvState) (u : Nat) (h : keysAligned st) :
    keysAligned (clear_conversation st u) := by
  intro v
  by_cases hv : v = u
  · subst hv
    simp only [clear_conversation, Function.update_same]
    exact Iff.rfl
  · simp only [clear_conversation]
    rw [Function.update_noteq hv, Function.update_noteq hv]
    exact h v

/-- `cleanup_inactive_conversations` keeps the key sets aligned. -/
theorem keysAligned_cleanup (now : Int) (st : ConvState) (h : keysAligned st) :
    keysAligned (cleanup_inactive_conversations now st) := by
  intro v
  simp only [cleanup_inactive_conversations]
  cases hla : st.last_activity v with
  | none =>
    have hc : st.conversations v = none := by
      have hv := h v
      rw [hla] at hv
      simp only [Option.isSome_none] at hv
      cases hcv : st.conversations v with
      | none => rfl
      | some l =>
        rw [hcv] at hv
        simp at hv
    simp [hla, hc]
  | some t =>
    by_cases ht : t < now - 1440
    · simp [hla, ht]
    · have hv := h v
      rw [hla] at hv
      simp only [Option.isSome_some] at hv
      simp [hla, ht, hv]

/-- The write-back of `prune_history_by_tokens` keeps the key sets
aligned: it only overwrites the conversation entry of a user that
already has one. -/
theorem keysAligned_prune (countTokens : List Turn → Option Nat) (mx : Nat)
    (st : ConvState) (u : Nat) (h : keysAligned st) :
    keysAligned (prune_history_by_tokens countTokens mx st u).1 := by
  by_cases hnil : get_conversation st u = []
  · rw [prune_of_nil countTokens mx st u hnil]
    exact h
  · rw [prune_of_ne_nil countTokens mx st u hnil]
    intro v
    by_cases hv : v = u
    · subst hv
      have hsome : (st.conversations v).isSome := by
        cases hcv : st.conversations v with
        | none =>
          exfalso
          apply hnil
          simp [get_conversation, hcv]
        | some l => simp
      simp only [Function.update_same, Option.isSome_some]
      constructor
      · intro _
        exact (h v).mp hsome
      · intro _
        trivial
    · have h1 : Function.update st.conversations u
          (some (pruneLoop countTokens mx (get_conversation st u))) v =
          st.conversations v := Function.update_noteq hv _ _
      simp only [h1]
      exact h v

/-- Applying any single manager operation preserves key-set alignment. -/
theorem keysAligned_applyOp (maxMessages : Nat) (st : ConvState) (op : MgrOp)
    (h : keysAligned st) : keysAligned (applyOp maxMessages st op) := by
  cases op with
  | addMsg u role parts now => exact keysAligned_add maxMessages now st u role parts h
  | clearConv u => exact keysAligned_clear st u h
  | cleanupInactive now => exact keysAligned_cleanup now st h
  | pruneTokens u countTokens mx => exact keysAligned_prune countTokens mx st u h

/-- Folding a list of manager operations preserves key-set alignment. -/
theorem keysAligned_foldl (maxMessages : Nat) :
    ∀ (ops : List MgrOp) (st : ConvState), keysAligned st →
      keysAligned (ops.foldl (applyOp maxMessages) st) := by
  intro ops
  induction ops with
  | nil =>
    intro st h
    simpa using h
  | cons op rest ih =>
    intro st h
    rw [List.foldl_cons]
    exact ih _ (keysAligned_applyOp maxMessages st op h)

/-- C10: after any sequence of manager operations starting from the
empty state, the set of user ids with a stored conversation equals the
set of user ids with a stored last-activity timestamp. -/
theorem conversation_maps_keys_aligned (maxMessages : Nat) (ops : List MgrOp) :
    keysAligned (ops.foldl (applyOp maxMessages) initState) :=
  keysAligned_foldl maxMessages ops initState
    (fun _ => Iff.rfl)

end TelegramBot
